import Mathlib

/-!
Verification of the analysis notebook `predict-retirement-insurance-contribs.ipynb`.

The notebook is a linear data-analysis script over numeric tables.  We embed the
relevant routines shallowly:

* a numeric table (feature matrix) is a `List (List α)` of *columns* (the
  routines under study all iterate column-wise: `X[:, i]` / `df[col]`);
* CSV numbers are exact values in a `LinearOrderedField` (instantiated at `ℚ`
  for executable checks and at `ℝ` where the code takes a square root);
* `np.median`, `np.percentile` (linear interpolation) and polars
  `Series.quantile` (default `nearest` interpolation) are defined exactly as
  those libraries compute them on NaN-free data;
* the float special values produced by division are modelled by `PFloat`
  where the target-column construction needs them.
-/

namespace Notebook

variable {α : Type} [LinearOrderedField α]

/-- A feature matrix, stored as its list of columns. -/
abbrev Mat (α : Type) := List (List α)

/-- Ascending sort of the entries of a column. -/
def asort (l : List α) : List α :=
  l.insertionSort (· ≤ ·)

/-- Function `np.median` on a one-dimensional NaN-free array: the middle entry of the
ascending sort for odd length, the mean of the two middle entries for even
length. -/
def npMedian (l : List α) : α :=
  let s := asort l
  let n := s.length
  if n % 2 = 1 then s.getD (n / 2) 0
  else (s.getD (n / 2 - 1) 0 + s.getD (n / 2) 0) / 2

namespace NegativeValueImputer

/-- Method `NegativeValueImputer.fit` (numpy-array branch): for each column the median
of its non-negative entries, or `0` when the column has none. -/
def fit (X : Mat α) : List α :=
  X.map (fun col =>
    let non_negative_values := col.filter (fun x => 0 ≤ x)
    if non_negative_values.length > 0 then npMedian non_negative_values else 0)

/-- Method `NegativeValueImputer.transform` (numpy-array branch), as a pure function on
the entries: every strictly negative entry of column `i` is replaced by
`medians[i]`. -/
def transform (medians : List α) (X : Mat α) : Mat α :=
  List.zipWith (fun m col => col.map (fun x => if x < 0 then m else x)) medians X

end NegativeValueImputer

/-- Function polars `Series.quantile` with the default `nearest` interpolation: index
`round(q * (n - 1))` of the ascending sort. -/
def plQuantile [FloorRing α] (l : List α) (q : α) : α :=
  let s := asort l
  (s.getD (round (q * ((s.length : α) - 1))).toNat 0)

namespace IQRClippingTransformer

/-- Method `IQRClippingTransformer.fit`: per column, `q3 + multiplier * (q3 - q1)`
with `q1`, `q3` the polars `0.25` and `0.75` quantiles. -/
def fit [FloorRing α] (multiplier : α) (X : Mat α) : List α :=
  X.map (fun col =>
    let q1 := plQuantile col (1 / 4)
    let q3 := plQuantile col (3 / 4)
    let iqr := q3 - q1
    q3 + multiplier * iqr)

/-- Method `IQRClippingTransformer.transform`: `pl.when(col > ub).then(ub).otherwise(col)`
per column. -/
def transform (upper_bounds : List α) (X : Mat α) : Mat α :=
  List.zipWith (fun ub col => col.map (fun x => if x > ub then ub else x)) upper_bounds X

end IQRClippingTransformer

/-! ### Metadata-driven column pruning (`get_columns_to_drop`) -/

/-- The classification loop of `get_columns_to_drop`: the source iterates the
metadata rows `(Variable, Hierarchy Level)` in order with an `i + 1` lookahead;
here the lookahead reads the head of the tail.  A row whose variable ends in
`AVG` or `MED` goes to the summary list (and the loop `continue`s); otherwise,
if a next row exists and its level is exactly one greater, the variable goes to
the non-leaf list. -/
def classifyRows : List (String × Int) → List String × List String
  | [] => ([], [])
  | (var, hier_level) :: rest =>
    let (non_leaf, summary) := classifyRows rest
    if var.endsWith "AVG" ∨ var.endsWith "MED" then (non_leaf, var :: summary)
    else
      match rest with
      | [] => (non_leaf, summary)
      | (_, next_level) :: _ =>
        if next_level = hier_level + 1 then (var :: non_leaf, summary)
        else (non_leaf, summary)

/-- Function `get_columns_to_drop` on an already-read metadata table:
`list(set(non_leaf_variables + summary_variables))`, i.e. the two lists
combined with duplicates removed. -/
def get_columns_to_drop (df : List (String × Int)) : List String :=
  let (non_leaf_variables, summary_variables) := classifyRows df
  (non_leaf_variables ++ summary_variables).dedup

/-- Spec-side predicate: `v` names a summary variable of the table (appears as
some row's `Variable` and its name ends with `AVG` or `MED`). -/
def IsSummaryVar (df : List (String × Int)) (v : String) : Prop :=
  (∃ p ∈ df, p.1 = v) ∧ (v.endsWith "AVG" ∨ v.endsWith "MED")

/-- Spec-side predicate: `v` names a non-leaf variable of the table (some row
carrying it is immediately followed by a row whose hierarchy level is exactly
one greater; the last row never qualifies). -/
def IsNonLeafVar (df : List (String × Int)) (v : String) : Prop :=
  ∃ i, i + 1 < df.length ∧ (df.getD i ("", 0)).1 = v ∧
    (df.getD (i + 1) ("", 0)).2 = (df.getD i ("", 0)).2 + 1

/-! ### Row/column cleaning after the join -/

/-- The cleaning block that follows the horizontal join of the spending and
demographics tables.  The two row filters are applied to `data`; the two
column-drop expressions are evaluated exactly as in the source, where the
results of `data.drop(...)` are never assigned (polars `drop` is not in
place), so they do not change `data`. -/
def cleanData (data : List (List ℚ)) : List (List ℚ) :=
  let invalid_row_threshold : ℚ := 1 / 20
  -- filter rows where > 5% of values are invalid (negative)
  let data1 := data.filter (fun row =>
    !decide (((row.countP (fun x => decide (x < 0)) : ℚ) / (row.length : ℚ)) > invalid_row_threshold))
  -- filter out rows where every entry equals 0
  let data2 := data1.filter (fun row => !row.all (fun x => decide (x = 0)))
  -- `cols_to_drop` / the all-zero column list are computed and `data.drop` is
  -- called, but its result is discarded in the source, so `data` is unchanged
  data2

/-! ### Target-column construction (`portion_retirement_insurance`) -/

/-- Float special values produced by the divisions in the target-column
construction (sign of zero ignored; the CSV inputs themselves are finite). -/
inductive PFloat where
  | num (q : ℚ)
  | nan
  | inf
  | ninf
deriving DecidableEq

/-- IEEE-754 division on `PFloat` (treating every zero as `+0`). -/
def pdiv : PFloat → PFloat → PFloat
  | .nan, _ => .nan
  | _, .nan => .nan
  | .num a, .num b =>
    if b ≠ 0 then .num (a / b)
    else if a = 0 then .nan
    else if a > 0 then .inf
    else .ninf
  | .num _, .inf => .num 0
  | .num _, .ninf => .num 0
  | .inf, .num b => if 0 ≤ b then .inf else .ninf
  | .ninf, .num b => if 0 ≤ b then .ninf else .inf
  | .inf, _ => .nan
  | .ninf, _ => .nan

/-- Step `fill_nan(0)` on a single cell. -/
def fillNan : PFloat → PFloat
  | .nan => .num 0
  | x => x

/-- One row of the spending table `hs` as read from the CSV, keyed by the
columns the target construction touches; `others` are the remaining spending
columns. -/
structure HsRow where
  HSEP001S : ℚ
  HSHNIAGG : ℚ
  HSBASHHD : ℚ
  others : List ℚ

/-- One row of `hs` after `HSBASHHD` is set aside, with float-valued cells. -/
structure HsRowDivided where
  HSEP001S : PFloat
  HSHNIAGG : PFloat
  others : List PFloat

/-- One row of `hs` after the target column is appended. -/
structure HsRowWithTarget where
  HSEP001S : PFloat
  HSHNIAGG : PFloat
  portion_retirement_insurance : PFloat
  others : List PFloat

/-- Step `hs = hs.with_columns(pl.all() / total_households[...])`: every remaining
column of the row is divided by the row's household count. -/
def divideByHouseholds (r : HsRow) : HsRowDivided :=
  { HSEP001S := pdiv (.num r.HSEP001S) (.num r.HSBASHHD)
    HSHNIAGG := pdiv (.num r.HSHNIAGG) (.num r.HSBASHHD)
    others := r.others.map fun x => pdiv (.num x) (.num r.HSBASHHD) }

/-- Step `hs = hs.with_columns((hs[INSURANCE_COL] / hs[INCOME_COL]).alias(...))`. -/
def withTargetColumn (r : HsRowDivided) : HsRowWithTarget :=
  { HSEP001S := r.HSEP001S
    HSHNIAGG := r.HSHNIAGG
    portion_retirement_insurance := pdiv r.HSEP001S r.HSHNIAGG
    others := r.others }

/-- Step `hs = hs.fill_nan(0)`: applied to every column of the frame, the freshly
added target column included. -/
def fillNanRow (r : HsRowWithTarget) : HsRowWithTarget :=
  { HSEP001S := fillNan r.HSEP001S
    HSHNIAGG := fillNan r.HSHNIAGG
    portion_retirement_insurance := fillNan r.portion_retirement_insurance
    others := r.others.map fillNan }

/-- The three feature-engineering steps of the source, composed per row. -/
def engineerRow (r : HsRow) : HsRowWithTarget :=
  fillNanRow (withTargetColumn (divideByHouseholds r))

/-- The target value as the claim describes it: `HSEP001S` divided by
`HSHNIAGG`, both taken after division by the household count `HSBASHHD`, with
a NaN result replaced by `0`. -/
def portionSpec (r : HsRow) : PFloat :=
  fillNan (pdiv (pdiv (.num r.HSEP001S) (.num r.HSBASHHD))
                (pdiv (.num r.HSHNIAGG) (.num r.HSBASHHD)))

/-! ### Bootstrap confidence intervals (`bootstrap_CI_regression`) -/

/-- Function `np.mean` of a one-dimensional array. -/
def npMean (l : List ℚ) : ℚ := l.sum / l.length

/-- Function `sklearn.metrics.mean_squared_error`. -/
def mean_squared_error (y_true y_pred : List ℚ) : ℚ :=
  npMean (List.zipWith (fun a b => (a - b) ^ 2) y_true y_pred)

/-- Function `sklearn.metrics.r2_score`: `1 - ss_res / ss_tot`, with sklearn's
degenerate-denominator convention (`1` when both sums vanish, `0` when only
the denominator does). -/
def r2_score (y_true y_pred : List ℚ) : ℚ :=
  let ss_res := (List.zipWith (fun a b => (a - b) ^ 2) y_true y_pred).sum
  let ss_tot := (y_true.map (fun a => (a - npMean y_true) ^ 2)).sum
  if ss_tot ≠ 0 then 1 - ss_res / ss_tot
  else if ss_res = 0 then 1 else 0

/-- Function `np.percentile` with the default linear interpolation: with `s` the
ascending sort and `h = q / 100 * (n - 1)`, interpolate between `s[⌊h⌋]` and
`s[⌊h⌋ + 1]`. -/
def npPercentile (a : List ℚ) (q : ℚ) : ℚ :=
  let s := asort a
  let n := s.length
  let h := q * ((n : ℚ) - 1) / 100
  let i := (⌊h⌋).toNat
  if i + 1 < n then s.getD i 0 + (h - (⌊h⌋ : ℚ)) * (s.getD (i + 1) 0 - s.getD i 0)
  else s.getD (n - 1) 0

/-- Fancy indexing `y[rand_idx]`. -/
def select (l : List ℚ) (idx : List ℕ) : List ℚ :=
  idx.map fun j => l.getD j 0

/-- Function `bootstrap_CI_regression`.  The bootstrap resampling indices drawn by
`np.random.choice(len(y_test), len(y_test), replace=True)` on iteration `i`
are supplied as `rand_idx i`. -/
def bootstrap_CI_regression (y_test y_pred : List ℚ) (n_bs : ℕ) (alpha : ℚ)
    (rand_idx : ℕ → List ℕ) : (ℚ × ℚ) × (ℚ × ℚ) :=
  let mse := mean_squared_error y_test y_pred
  let r2 := r2_score y_test y_pred
  let bs_mse := (List.range n_bs).map fun i =>
    mean_squared_error (select y_test (rand_idx i)) (select y_pred (rand_idx i))
  let bs_r2 := (List.range n_bs).map fun i =>
    r2_score (select y_test (rand_idx i)) (select y_pred (rand_idx i))
  let bs_mse_spread := bs_mse.map (· - mse)
  let bs_r2_spread := bs_r2.map (· - r2)
  let mse_ci_lower := mse - npPercentile bs_mse_spread (100 * (1 - alpha / 2))
  let mse_ci_upper := mse - npPercentile bs_mse_spread (100 * (alpha / 2))
  let r2_ci_lower := r2 - npPercentile bs_r2_spread (100 * (1 - alpha / 2))
  let r2_ci_upper := r2 - npPercentile bs_r2_spread (100 * (alpha / 2))
  ((mse_ci_lower, mse_ci_upper), (r2_ci_lower, r2_ci_upper))

/-! ### Top-coefficient report (`sorted_indices`) -/

/-- Comparison of positions `i`, `j` of `k` by their values (out-of-range
positions read the default `0`); `np.argsort` orders positions by it. -/
def keyLE (k : List ℚ) (i j : ℕ) : Prop :=
  k.getD i 0 ≤ k.getD j 0

instance (k : List ℚ) : DecidableRel (keyLE k) :=
  fun i j => inferInstanceAs (Decidable (k.getD i 0 ≤ k.getD j 0))

instance (k : List ℚ) : IsTotal ℕ (keyLE k) :=
  ⟨fun i j => le_total (k.getD i 0) (k.getD j 0)⟩

instance (k : List ℚ) : IsTrans ℕ (keyLE k) :=
  ⟨fun _ _ _ hab hbc => le_trans hab hbc⟩

instance (k : List ℚ) : IsRefl ℕ (keyLE k) :=
  ⟨fun i => le_refl (k.getD i 0)⟩

/-- Function `np.argsort`: the positions `0, …, n-1` ordered by ascending value. -/
def npArgsort (k : List ℚ) : List ℕ :=
  (List.range k.length).insertionSort (keyLE k)

/-- Report `sorted_indices = np.argsort(np.abs(feature_importances))[::-1][:5]`. -/
def sorted_indices (feature_importances : List ℚ) : List ℕ :=
  ((npArgsort (feature_importances.map (fun x => |x|))).reverse).take 5

/-! ### Frame conditions of the two `transform` methods

To express that `transform` does not mutate the array passed to it, the
mutable arrays in play are modelled by a heap of allocated arrays addressed by
position; an argument is a heap address, `copy`/`pl.DataFrame`/`to_numpy`
allocate at the end of the heap, and the in-place updates of the Python code
become `List.set` at the address they target. -/

/-- A heap of allocated arrays; addresses are positions. -/
abbrev Heap := List (Mat ℚ)

/-- Dereference an address. -/
def readH (h : Heap) (r : ℕ) : Mat ℚ := h.getD r []

/-- Method `NegativeValueImputer.transform` (numpy branch) as a heap procedure:
`X_copy = X.copy()` allocates a fresh array with `X`'s entries, then the
column loop assigns `X_copy[X_copy[:, i] < 0, i] = self.medians[i]` in place
on the copy, which is returned. -/
def nviTransformProc (medians : List ℚ) (h : Heap) (X : ℕ) : Heap × ℕ :=
  let X_copy := h.length
  let h1 := h ++ [readH h X]
  let ncols := (readH h1 X_copy).length
  let h2 := (List.range ncols).foldl
    (fun hh i =>
      let A := readH hh X_copy
      let col := (A.getD i []).map fun x => if x < 0 then medians.getD i 0 else x
      hh.set X_copy (A.set i col))
    h1
  (h2, X_copy)

/-- One iteration of the `IQRClippingTransformer.transform` loop on the heap:
when column `i` has a fitted bound, `df = df.with_columns(...)` builds a fresh
frame with that column clipped and rebinds `df` to it; otherwise nothing
happens. -/
def iqrStep (upper_bounds : List ℚ) (p : Heap × ℕ) (i : ℕ) : Heap × ℕ :=
  let (hh, df) := p
  if i < upper_bounds.length then
    let A := readH hh df
    let ub := upper_bounds.getD i 0
    let col := (A.getD i []).map fun x => if x > ub then ub else x
    (hh ++ [A.set i col], hh.length)
  else p

/-- Method `IQRClippingTransformer.transform` as a heap procedure: `pl.DataFrame(X)`
allocates a frame with `X`'s entries; each loop iteration rebinds `df` to a
freshly built frame (`with_columns` clipping column `i` when `i` has a fitted
bound); `df.to_numpy()` allocates the returned array. -/
def iqrTransformProc (upper_bounds : List ℚ) (h : Heap) (X : ℕ) : Heap × ℕ :=
  let h1 := h ++ [readH h X]
  let df0 := h.length
  let ncols := (readH h1 df0).length
  let r := (List.range ncols).foldl (iqrStep upper_bounds) (h1, df0)
  (r.1 ++ [readH r.1 r.2], r.1.length)

end Notebook

/-! ### The preprocessing pipeline over `ℝ`

`StandardScaler` divides by a square root, so the composed pipeline is stated
over `ℝ` (the imputer and clipper above are polymorphic in the field). -/

namespace Notebook

/-- Stage `StandardScaler().fit_transform`: per column subtract the mean and divide
by `sqrt` of the population variance, a zero scale being replaced by `1`
(sklearn's `_handle_zeros_in_scale`). -/
noncomputable def StandardScaler.fitTransform (X : Mat ℝ) : Mat ℝ :=
  X.map fun col =>
    let μ := col.sum / (col.length : ℝ)
    let var := (col.map fun x => (x - μ) ^ 2).sum / (col.length : ℝ)
    let scale := if Real.sqrt var = 0 then 1 else Real.sqrt var
    col.map fun x => (x - μ) / scale

/-- A pipeline stage, as its `fit_transform` action. -/
abbrev Stage := Mat ℝ → Mat ℝ

/-- Pipeline `preprocess`: the three named stages, in source order. -/
noncomputable def preprocess : List Stage :=
  [fun X => NegativeValueImputer.transform (NegativeValueImputer.fit X) X,
   fun X => IQRClippingTransformer.transform (IQRClippingTransformer.fit 3 X) X,
   StandardScaler.fitTransform]

/-- Method `Pipeline.fit_transform`: each stage is fitted on, and transforms, the
output of the previous stage. -/
def Pipeline.fit_transform (stages : List Stage) (X : Mat ℝ) : Mat ℝ :=
  stages.foldl (fun acc f => f acc) X

end Notebook

/-! ## Theorems -/

namespace Notebook

variable {α : Type} [LinearOrderedField α]

lemma getD_nonneg {l : List α} (hl : ∀ x ∈ l, 0 ≤ x) (i : ℕ) : 0 ≤ l.getD i 0 := by
  by_cases h : i < l.length
  · rw [List.getD_eq_getElem _ _ h]; exact hl _ (List.getElem_mem _)
  · rw [List.getD_eq_default _ _ (le_of_not_lt h)]

lemma npMedian_nonneg {l : List α} (hl : ∀ x ∈ l, 0 ≤ x) : 0 ≤ npMedian l := by
  have hs : ∀ x ∈ asort l, 0 ≤ x := by
    intro x hx
    exact hl x ((List.perm_insertionSort _ l).subset hx)
  simp only [npMedian]
  split
  · exact getD_nonneg hs _
  · have := getD_nonneg hs ((asort l).length / 2 - 1)
    have := getD_nonneg hs ((asort l).length / 2)
    positivity

lemma fit_nonneg (X : Mat α) : ∀ m ∈ NegativeValueImputer.fit X, 0 ≤ m := by
  intro m hm
  rcases List.mem_map.mp hm with ⟨col, _, rfl⟩
  dsimp only
  split
  · apply npMedian_nonneg
    intro x hx
    exact of_decide_eq_true (List.mem_filter.mp hx).2
  · exact le_refl 0

lemma transform_nonneg (ms : List α) (hms : ∀ m ∈ ms, 0 ≤ m) :
    ∀ (Y : Mat α), ∀ col ∈ NegativeValueImputer.transform ms Y, ∀ x ∈ col, 0 ≤ x := by
  induction ms with
  | nil => intro Y col hcol; simp [NegativeValueImputer.transform] at hcol
  | cons m ms ih =>
    intro Y col hcol x hx
    cases Y with
    | nil => simp [NegativeValueImputer.transform] at hcol
    | cons c Y =>
      simp only [NegativeValueImputer.transform, List.zipWith_cons_cons] at hcol
      rcases List.mem_cons.mp hcol with rfl | hcol
      · rcases List.mem_map.mp hx with ⟨y, _, rfl⟩
        split
        · exact hms m (List.mem_cons_self _ _)
        · next hy => exact le_of_not_lt hy
      · exact ih (fun m' hm' => hms m' (List.mem_cons_of_mem _ hm')) Y col hcol x hx

lemma transform_idem (ms : List α) (Y : Mat α) :
    NegativeValueImputer.transform ms (NegativeValueImputer.transform ms Y)
      = NegativeValueImputer.transform ms Y := by
  induction ms generalizing Y with
  | nil => simp [NegativeValueImputer.transform]
  | cons m ms ih =>
    cases Y with
    | nil => simp [NegativeValueImputer.transform]
    | cons c Y =>
      simp only [NegativeValueImputer.transform, List.zipWith_cons_cons] at ih ⊢
      rw [ih, List.map_map]
      congr 1
      apply List.map_congr_left
      intro x _
      dsimp only [Function.comp]
      by_cases hx : x < 0 <;> simp [hx]

end Notebook
namespace Notebook

lemma classifyRows_cons_snd (var : String) (hl : Int) (rest : List (String × Int)) :
    (classifyRows ((var, hl) :: rest)).2 =
      if var.endsWith "AVG" ∨ var.endsWith "MED" then var :: (classifyRows rest).2
      else (classifyRows rest).2 := by
  by_cases h : var.endsWith "AVG" ∨ var.endsWith "MED"
  · cases rest with
    | nil => simp [classifyRows, h]
    | cons b rest' =>
      obtain ⟨bv, bl⟩ := b
      by_cases h2 : bl = hl + 1 <;> simp [classifyRows, h, h2]
  · cases rest with
    | nil => simp [classifyRows, h]
    | cons b rest' =>
      obtain ⟨bv, bl⟩ := b
      by_cases h2 : bl = hl + 1 <;> simp [classifyRows, h, h2]

lemma classifyRows_cons_fst (var : String) (hl : Int) (rest : List (String × Int)) :
    (classifyRows ((var, hl) :: rest)).1 =
      if ¬(var.endsWith "AVG" ∨ var.endsWith "MED")
          ∧ 0 < rest.length ∧ (rest.getD 0 ("", 0)).2 = hl + 1 then
        var :: (classifyRows rest).1
      else (classifyRows rest).1 := by
  by_cases h : var.endsWith "AVG" ∨ var.endsWith "MED"
  · cases rest with
    | nil => simp [classifyRows, h]
    | cons b rest' =>
      obtain ⟨bv, bl⟩ := b
      by_cases h2 : bl = hl + 1 <;> simp [classifyRows, h, h2]
  · cases rest with
    | nil => simp [classifyRows, h]
    | cons b rest' =>
      obtain ⟨bv, bl⟩ := b
      by_cases h2 : bl = hl + 1 <;> simp [classifyRows, h, h2, List.getD_cons_zero]


lemma mem_classifyRows_snd (df : List (String × Int)) (v : String) :
    v ∈ (classifyRows df).2 ↔ IsSummaryVar df v := by
  induction df with
  | nil => simp [classifyRows, IsSummaryVar]
  | cons a rest ih =>
    obtain ⟨var, hl⟩ := a
    rw [classifyRows_cons_snd]
    by_cases h : var.endsWith "AVG" ∨ var.endsWith "MED"
    · rw [if_pos h]
      unfold IsSummaryVar
      constructor
      · intro hv
        rcases List.mem_cons.mp hv with rfl | hv2
        · exact ⟨⟨(v, hl), List.mem_cons_self _ _, rfl⟩, h⟩
        · obtain ⟨⟨p, hp, hpv⟩, he⟩ := (ih.mp hv2 : IsSummaryVar rest v)
          exact ⟨⟨p, List.mem_cons_of_mem _ hp, hpv⟩, he⟩
      · rintro ⟨⟨p, hp, hpv⟩, he⟩
        rcases List.mem_cons.mp hp with rfl | hp2
        · subst hpv
          exact List.mem_cons_self _ _
        · exact List.mem_cons_of_mem _ (ih.mpr ⟨⟨p, hp2, hpv⟩, he⟩)
    · rw [if_neg h, ih]
      unfold IsSummaryVar
      constructor
      · rintro ⟨⟨p, hp, hpv⟩, he⟩
        exact ⟨⟨p, List.mem_cons_of_mem _ hp, hpv⟩, he⟩
      · rintro ⟨⟨p, hp, hpv⟩, he⟩
        rcases List.mem_cons.mp hp with rfl | hp2
        · subst hpv
          exact absurd he h
        · exact ⟨⟨p, hp2, hpv⟩, he⟩

lemma isNonLeafVar_cons (var : String) (hl : Int) (rest : List (String × Int)) (v : String) :
    IsNonLeafVar ((var, hl) :: rest) v ↔
      ((0 < rest.length ∧ var = v ∧ (rest.getD 0 ("", 0)).2 = hl + 1) ∨ IsNonLeafVar rest v) := by
  unfold IsNonLeafVar
  constructor
  · rintro ⟨i, hi, hv, hlev⟩
    cases i with
    | zero =>
      left
      simp only [List.getD_cons_zero] at hv
      simp only [List.getD_cons_succ] at hlev
      refine ⟨by simpa using hi, hv, by simpa using hlev⟩
    | succ j =>
      right
      exact ⟨j, by simpa using hi, by simpa using hv, by simpa using hlev⟩
  · rintro (⟨hlen, rfl, hlev⟩ | ⟨j, hj, hv, hlev⟩)
    · exact ⟨0, by simpa using hlen, by simp, by simpa using hlev⟩
    · exact ⟨j + 1, by simpa using hj, by simpa using hv, by simpa using hlev⟩

lemma mem_classifyRows_fst (df : List (String × Int)) (v : String) :
    v ∈ (classifyRows df).1 ↔
      (¬(v.endsWith "AVG" ∨ v.endsWith "MED") ∧ IsNonLeafVar df v) := by
  induction df with
  | nil => simp [classifyRows, IsNonLeafVar]
  | cons a rest ih =>
    obtain ⟨var, hl⟩ := a
    rw [classifyRows_cons_fst, isNonLeafVar_cons]
    by_cases hc : ¬(var.endsWith "AVG" ∨ var.endsWith "MED")
        ∧ 0 < rest.length ∧ (rest.getD 0 ("", 0)).2 = hl + 1
    · rw [if_pos hc]
      simp only [List.mem_cons, ih]
      constructor
      · rintro (rfl | ⟨hne, hnl⟩)
        · exact ⟨hc.1, Or.inl ⟨hc.2.1, rfl, hc.2.2⟩⟩
        · exact ⟨hne, Or.inr hnl⟩
      · rintro ⟨hne, (⟨hlen, rfl, hlev⟩ | hnl)⟩
        · exact Or.inl rfl
        · exact Or.inr ⟨hne, hnl⟩
    · rw [if_neg hc, ih]
      constructor
      · rintro ⟨hne, hnl⟩
        exact ⟨hne, Or.inr hnl⟩
      · rintro ⟨hne, (⟨hlen, rfl, hlev⟩ | hnl)⟩
        · exact absurd ⟨hne, hlen, hlev⟩ hc
        · exact ⟨hne, hnl⟩

lemma get_columns_to_drop_eq (df : List (String × Int)) :
    get_columns_to_drop df = ((classifyRows df).1 ++ (classifyRows df).2).dedup := rfl

/-- Claim C1: `get_columns_to_drop` returns, without duplicates, exactly the
union of the summary variables (name ending in `AVG` or `MED`) and the
non-leaf variables (some occurrence immediately followed by a row one
hierarchy level deeper; the last row never qualifies, and an `AVG`/`MED`
variable is recorded via the summary side). -/
theorem c1_get_columns_to_drop_characterization (df : List (String × Int)) :
    (get_columns_to_drop df).Nodup ∧
      ∀ v, v ∈ get_columns_to_drop df ↔ (IsSummaryVar df v ∨ IsNonLeafVar df v) := by
  constructor
  · rw [get_columns_to_drop_eq]
    exact List.nodup_dedup _
  · intro v
    rw [get_columns_to_drop_eq, List.mem_dedup, List.mem_append,
      mem_classifyRows_fst, mem_classifyRows_snd]
    constructor
    · rintro (⟨hne, hnl⟩ | hsm)
      · exact Or.inr hnl
      · exact Or.inl hsm
    · rintro (hsm | hnl)
      · exact Or.inr hsm
      · by_cases hv : v.endsWith "AVG" ∨ v.endsWith "MED"
        · obtain ⟨i, hi, hvi, _⟩ := hnl
          refine Or.inr ⟨⟨df.getD i ("", 0), ?_, hvi⟩, hv⟩
          have hlt : i < df.length := by omega
          rw [List.getD_eq_getElem _ _ hlt]
          exact List.getElem_mem _
        · exact Or.inl ⟨hv, hnl⟩


lemma fit_getD (X : Mat ℚ) (j : ℕ) (hj : j < X.length) :
    (NegativeValueImputer.fit X).getD j 0 =
      (if ((X.getD j []).filter (fun x => 0 ≤ x)).length > 0
       then npMedian ((X.getD j []).filter (fun x => 0 ≤ x)) else 0) := by
  have hj2 : j < (NegativeValueImputer.fit X).length := by
    simpa [NegativeValueImputer.fit] using hj
  rw [List.getD_eq_getElem _ _ hj2, List.getD_eq_getElem _ _ hj]
  simp [NegativeValueImputer.fit]

lemma nvi_transform_getD (ms : List ℚ) (X : Mat ℚ) (j k : ℕ)
    (hms : ms.length = X.length) (hj : j < X.length) (hk : k < (X.getD j []).length) :
    ((NegativeValueImputer.transform ms X).getD j []).getD k 0 =
      (if (X.getD j []).getD k 0 < 0 then ms.getD j 0 else (X.getD j []).getD k 0) := by
  have hjz : j < (NegativeValueImputer.transform ms X).length := by
    simp [NegativeValueImputer.transform, hms, hj]
  have hjm : j < ms.length := by omega
  rw [List.getD_eq_getElem _ _ hjz]
  simp only [NegativeValueImputer.transform] at hjz ⊢
  rw [List.getElem_zipWith]
  have hk2 : k < (X[j]).length := by
    rwa [List.getD_eq_getElem _ _ hj] at hk
  have hk3 : k < ((X[j]).map (fun x => if x < 0 then ms[j] else x)).length := by
    simpa using hk2
  rw [List.getD_eq_getElem _ _ hk3, List.getElem_map]
  simp only [List.getD_eq_getElem _ _ hj, List.getD_eq_getElem _ _ hjm,
    List.getD_eq_getElem _ _ hk, List.getD_eq_getElem _ _ hk2]

/-- Claim C2, counterexample: On the single-column matrix `[-10, 0, 2]` the
fitted value is `1`, the median of the non-negative entries `[0, 2]`, while
the column's median is `0`; `transform` accordingly writes `1`, not the
column median, into the negative slot. -/
theorem c2_counterexample :
    NegativeValueImputer.fit [[(-10 : ℚ), 0, 2]] = [1] ∧
    npMedian [(-10 : ℚ), 0, 2] = 0 ∧
    NegativeValueImputer.transform (NegativeValueImputer.fit [[(-10 : ℚ), 0, 2]])
        [[(-10 : ℚ), 0, 2]] = [[1, 0, 2]] ∧
    (1 : ℚ) ≠ 0 := by
  refine ⟨?_, ?_, ?_, by norm_num⟩
  · norm_num [NegativeValueImputer.fit, npMedian, asort, List.insertionSort,
      List.orderedInsert, List.filter]
  · norm_num [npMedian, asort, List.insertionSort, List.orderedInsert]
  · norm_num [NegativeValueImputer.fit, NegativeValueImputer.transform, npMedian, asort,
      List.insertionSort, List.orderedInsert, List.filter]

/-- Claim C2, amended: After `fit`, the per-column fitted value is the median of
the column's *non-negative* entries (`0` when there are none), and `transform`
replaces exactly the strictly negative entries by that fitted value. -/
theorem c2_amended_imputer (X : Mat ℚ) (j k : ℕ) (hj : j < X.length)
    (hk : k < (X.getD j []).length) :
    (NegativeValueImputer.fit X).getD j 0 =
      (if ((X.getD j []).filter (fun x => 0 ≤ x)).length > 0
       then npMedian ((X.getD j []).filter (fun x => 0 ≤ x)) else 0)
    ∧ ((NegativeValueImputer.transform (NegativeValueImputer.fit X) X).getD j []).getD k 0 =
      (if (X.getD j []).getD k 0 < 0 then (NegativeValueImputer.fit X).getD j 0
       else (X.getD j []).getD k 0) := by
  refine ⟨fit_getD X j hj, ?_⟩
  exact nvi_transform_getD _ X j k (by simp [NegativeValueImputer.fit]) hj hk

theorem c2_amended_imputer_witness :
    ((NegativeValueImputer.transform (NegativeValueImputer.fit [[(-1 : ℚ), 2]])
        [[(-1 : ℚ), 2]]).getD 0 []).getD 0 0 =
      (if (([[(-1 : ℚ), 2]] : Mat ℚ).getD 0 []).getD 0 0 < 0
       then (NegativeValueImputer.fit [[(-1 : ℚ), 2]]).getD 0 0
       else (([[(-1 : ℚ), 2]] : Mat ℚ).getD 0 []).getD 0 0) :=
  (c2_amended_imputer [[(-1 : ℚ), 2]] 0 0 (by norm_num) (by norm_num)).2


lemma iqr_fit_getD (m : ℚ) (X : Mat ℚ) (j : ℕ) (hj : j < X.length) :
    (IQRClippingTransformer.fit m X).getD j 0 =
      plQuantile (X.getD j []) (3 / 4)
        + m * (plQuantile (X.getD j []) (3 / 4) - plQuantile (X.getD j []) (1 / 4)) := by
  have hj2 : j < (IQRClippingTransformer.fit m X).length := by
    simpa [IQRClippingTransformer.fit] using hj
  rw [List.getD_eq_getElem _ _ hj2, List.getD_eq_getElem _ _ hj]
  simp [IQRClippingTransformer.fit]

lemma iqr_transform_getD (ubs : List ℚ) (X : Mat ℚ) (j k : ℕ)
    (hubs : ubs.length = X.length) (hj : j < X.length) (hk : k < (X.getD j []).length) :
    ((IQRClippingTransformer.transform ubs X).getD j []).getD k 0 =
      (if (X.getD j []).getD k 0 > ubs.getD j 0 then ubs.getD j 0
       else (X.getD j []).getD k 0) := by
  have hjz : j < (IQRClippingTransformer.transform ubs X).length := by
    simp [IQRClippingTransformer.transform, hubs, hj]
  have hjm : j < ubs.length := by omega
  rw [List.getD_eq_getElem _ _ hjz]
  simp only [IQRClippingTransformer.transform] at hjz ⊢
  rw [List.getElem_zipWith]
  have hk2 : k < (X[j]).length := by
    rwa [List.getD_eq_getElem _ _ hj] at hk
  have hk3 : k < ((X[j]).map (fun x => if x > ubs[j] then ubs[j] else x)).length := by
    simpa using hk2
  rw [List.getD_eq_getElem _ _ hk3, List.getElem_map]
  simp only [List.getD_eq_getElem _ _ hj, List.getD_eq_getElem _ _ hjm,
    List.getD_eq_getElem _ _ hk, List.getD_eq_getElem _ _ hk2]

/-- Claim C3: After `fit`, each column's fitted upper bound is
`q3 + multiplier * (q3 - q1)` with `q1`, `q3` the column's 25th and 75th
percentiles (polars quantiles); `transform` maps an entry strictly above its
column's bound to the bound and leaves an entry at most the bound unchanged
(no lower-side clipping), so every output entry is at most the bound. -/
theorem c3_iqr_clipping (m : ℚ) (X : Mat ℚ) (j k : ℕ) (hj : j < X.length)
    (hk : k < (X.getD j []).length) :
    (IQRClippingTransformer.fit m X).getD j 0 =
      plQuantile (X.getD j []) (3 / 4)
        + m * (plQuantile (X.getD j []) (3 / 4) - plQuantile (X.getD j []) (1 / 4))
    ∧ ((IQRClippingTransformer.transform (IQRClippingTransformer.fit m X) X).getD j []).getD k 0 =
      (if (X.getD j []).getD k 0 > (IQRClippingTransformer.fit m X).getD j 0
       then (IQRClippingTransformer.fit m X).getD j 0
       else (X.getD j []).getD k 0)
    ∧ ((IQRClippingTransformer.transform (IQRClippingTransformer.fit m X) X).getD j []).getD k 0
        ≤ (IQRClippingTransformer.fit m X).getD j 0 := by
  have hlen : (IQRClippingTransformer.fit m X).length = X.length := by
    simp [IQRClippingTransformer.fit]
  have htr := iqr_transform_getD (IQRClippingTransformer.fit m X) X j k hlen hj hk
  refine ⟨iqr_fit_getD m X j hj, htr, ?_⟩
  rw [htr]
  split
  · exact le_refl _
  · next h => exact le_of_not_lt h

theorem c3_iqr_clipping_witness :
    ((IQRClippingTransformer.transform (IQRClippingTransformer.fit 3 [[(1 : ℚ), 2, 3, 100]])
        [[(1 : ℚ), 2, 3, 100]]).getD 0 []).getD 3 0
      ≤ (IQRClippingTransformer.fit 3 [[(1 : ℚ), 2, 3, 100]]).getD 0 0 :=
  (c3_iqr_clipping 3 [[(1 : ℚ), 2, 3, 100]] 0 3 (by norm_num) (by norm_num)).2.2


/-- Claim C4: The derived target column equals `HSEP001S / HSHNIAGG`, both taken
after every spending column is divided by the household count `HSBASHHD`, with
a NaN result of the division replaced by `0`. -/
theorem c4_target_construction (r : HsRow) :
    (engineerRow r).portion_retirement_insurance = portionSpec r := rfl

/-- Claim C5, code bug: On a joined matrix whose second column is identically
zero, the cleaning step returns the matrix unchanged: the column-drop results
are discarded in the source, so an all-zero column survives, contradicting the
source's own comments and the claim. -/
theorem c5_cleaning_keeps_allzero_column :
    cleanData [[(1 : ℚ), 0], [2, 0]] = [[1, 0], [2, 0]] ∧
    ∀ row ∈ cleanData [[(1 : ℚ), 0], [2, 0]], row.getD 1 0 = 0 := by
  have h : cleanData [[(1 : ℚ), 0], [2, 0]] = [[1, 0], [2, 0]] := by
    norm_num [cleanData, List.countP, List.countP.go, List.all]
  refine ⟨h, ?_⟩
  rw [h]
  intro row hrow
  rcases List.mem_cons.mp hrow with rfl | hrow2
  · norm_num
  · rcases List.mem_cons.mp hrow2 with rfl | h3
    · norm_num
    · simp at h3

/-- Claim C6: The `preprocess` pipeline has exactly three stages — negative-value
imputation, then IQR clipping, then standardization — and its `fit_transform`
feeds each stage's output to the next. -/
theorem c6_pipeline_three_stages :
    preprocess.length = 3 ∧
    ∀ X : Mat ℝ, Pipeline.fit_transform preprocess X =
      StandardScaler.fitTransform
        (IQRClippingTransformer.transform
          (IQRClippingTransformer.fit 3
            (NegativeValueImputer.transform (NegativeValueImputer.fit X) X))
          (NegativeValueImputer.transform (NegativeValueImputer.fit X) X)) :=
  ⟨rfl, fun _ => rfl⟩

/-- Claim C10: Every fitted median is non-negative, hence `transform` emits no
negative entry and is idempotent. -/
theorem c10_imputer_nonneg_idempotent (X : Mat ℚ) :
    (∀ m ∈ NegativeValueImputer.fit X, 0 ≤ m)
    ∧ (∀ Y : Mat ℚ, ∀ col ∈ NegativeValueImputer.transform (NegativeValueImputer.fit X) Y,
        ∀ x ∈ col, 0 ≤ x)
    ∧ (∀ Y : Mat ℚ,
        NegativeValueImputer.transform (NegativeValueImputer.fit X)
          (NegativeValueImputer.transform (NegativeValueImputer.fit X) Y)
        = NegativeValueImputer.transform (NegativeValueImputer.fit X) Y) :=
  ⟨fit_nonneg X, fun Y => transform_nonneg _ (fit_nonneg X) Y, fun Y => transform_idem _ Y⟩

end Notebook
namespace Notebook

lemma absmap_getD (coef : List ℚ) (j : ℕ) :
    (coef.map (fun x => |x|)).getD j 0 = |coef.getD j 0| := by
  by_cases h : j < coef.length
  · rw [List.getD_eq_getElem _ _ (by simpa using h), List.getElem_map,
      List.getD_eq_getElem _ _ h]
  · rw [List.getD_eq_default _ _ (by simpa using le_of_not_lt h),
      List.getD_eq_default _ _ (le_of_not_lt h)]
    simp

/-- Claim C8: With at least 5 features, `sorted_indices` lists exactly 5 distinct
feature positions, in non-increasing order of absolute coefficient, and every
listed position's absolute coefficient is at least that of every unlisted
position. -/
theorem c8_top5_features (coef : List ℚ) (h5 : 5 ≤ coef.length) :
    (sorted_indices coef).length = 5
    ∧ (sorted_indices coef).Nodup
    ∧ (∀ i ∈ sorted_indices coef, i < coef.length)
    ∧ (sorted_indices coef).Pairwise (fun i j => |coef.getD j 0| ≤ |coef.getD i 0|)
    ∧ (∀ i ∈ sorted_indices coef, ∀ j, j < coef.length → j ∉ sorted_indices coef →
        |coef.getD j 0| ≤ |coef.getD i 0|) := by
  set k := coef.map (fun x => |x|) with hk
  have hklen : k.length = coef.length := by simp [hk]
  have hperm : List.Perm (npArgsort k) (List.range k.length) := List.perm_insertionSort _ _
  have hsorted : (npArgsort k).Pairwise (keyLE k) := List.sorted_insertionSort _ _
  have hAlen : (npArgsort k).length = k.length := hperm.length_eq.trans (by simp)
  have hRlen : (npArgsort k).reverse.length = k.length := by simpa using hAlen
  have hRsorted : (npArgsort k).reverse.Pairwise (flip (keyLE k)) :=
    List.pairwise_reverse.mpr hsorted
  have houtlen : (sorted_indices coef).length = 5 := by
    rw [sorted_indices, List.length_take, hRlen, hklen]
    omega
  have hmemR : ∀ j, j ∈ (npArgsort k).reverse ↔ j < coef.length := by
    intro j
    rw [List.mem_reverse, hperm.mem_iff, List.mem_range, hklen]
  have houtsub : (sorted_indices coef).Sublist (npArgsort k).reverse :=
    List.take_sublist _ _
  refine ⟨houtlen, ?_, ?_, ?_, ?_⟩
  · exact houtsub.nodup (by
      rw [List.nodup_reverse]
      exact hperm.nodup_iff.mpr (List.nodup_range _))
  · intro i hi
    exact (hmemR i).mp (houtsub.subset hi)
  · refine (hRsorted.sublist houtsub).imp ?_
    intro i j hij
    have := hij
    simp only [flip, keyLE] at this
    rw [absmap_getD, absmap_getD] at this
    exact this
  · intro i hi j hj hjout
    have hjR : j ∈ (npArgsort k).reverse := (hmemR j).mpr hj
    have hsplit := List.take_append_drop 5 (npArgsort k).reverse
    have hjdrop : j ∈ (npArgsort k).reverse.drop 5 := by
      rcases (List.mem_append.mp (by rw [hsplit]; exact hjR) : _ ∨ _) with h1 | h2
      · exact absurd h1 hjout
      · exact h2
    have hpw : ((npArgsort k).reverse.take 5 ++ (npArgsort k).reverse.drop 5).Pairwise
        (flip (keyLE k)) := by rw [hsplit]; exact hRsorted
    have hkey := (List.pairwise_append.mp hpw).2.2 i hi j hjdrop
    simp only [flip, keyLE] at hkey
    rw [absmap_getD, absmap_getD] at hkey
    exact hkey

theorem c8_top5_features_witness :
    (sorted_indices [(1 : ℚ), -3, 2, 0, 5, -4]).length = 5 :=
  (c8_top5_features [(1 : ℚ), -3, 2, 0, 5, -4] (by norm_num)).1

end Notebook
namespace Notebook

lemma readH_append_left (h : Heap) (A : Mat ℚ) (r : ℕ) (hr : r < h.length) :
    readH (h ++ [A]) r = readH h r :=
  List.getD_append _ _ _ _ hr

lemma readH_set_ne (h : Heap) (p : ℕ) (A : Mat ℚ) (r : ℕ) (hne : p ≠ r) :
    readH (h.set p A) r = readH h r := by
  unfold readH
  rw [List.getD_eq_getElem?_getD, List.getD_eq_getElem?_getD, List.getElem?_set_ne hne]

lemma foldl_set_preserves (p r : ℕ) (hne : p ≠ r) (l : List ℕ)
    (step : Heap → ℕ → Mat ℚ) :
    ∀ h : Heap, readH (l.foldl (fun hh i => hh.set p (step hh i)) h) r = readH h r := by
  induction l with
  | nil => intro h; rfl
  | cons i l ih =>
    intro h
    rw [List.foldl_cons, ih, readH_set_ne _ _ _ _ hne]

lemma iqrStep_fold_invariant (ubs : List ℚ) (X n : ℕ) (hXn : X < n) (l : List ℕ) :
    ∀ p : Heap × ℕ, n ≤ p.1.length →
      n ≤ (l.foldl (iqrStep ubs) p).1.length ∧
      readH (l.foldl (iqrStep ubs) p).1 X = readH p.1 X := by
  induction l with
  | nil => intro p h1; exact ⟨h1, rfl⟩
  | cons i l ih =>
    intro p h1
    rw [List.foldl_cons]
    obtain ⟨hh, df⟩ := p
    by_cases hc : i < ubs.length
    · simp only [iqrStep, if_pos hc]
      have hrec := ih (hh ++ [(readH hh df).set i
          (((readH hh df).getD i []).map fun x => if x > ubs.getD i 0 then ubs.getD i 0 else x)],
          hh.length) (by simp at h1 ⊢; omega)
      refine ⟨hrec.1, hrec.2.trans ?_⟩
      exact readH_append_left _ _ _ (by simp at h1; omega)
    · simp only [iqrStep, if_neg hc]
      exact ih (hh, df) h1

/-- Claim C9: Neither `transform` mutates the array passed in: dereferencing the
argument after either procedure yields the original contents, and each returns
a freshly allocated reference, distinct from the argument. -/
theorem c9_transform_frame (ms ubs : List ℚ) (h : Heap) (X : ℕ) (hX : X < h.length) :
    readH (nviTransformProc ms h X).1 X = readH h X
    ∧ (nviTransformProc ms h X).2 ≠ X
    ∧ readH (iqrTransformProc ubs h X).1 X = readH h X
    ∧ (iqrTransformProc ubs h X).2 ≠ X := by
  have hinv := iqrStep_fold_invariant ubs X h.length hX
    (List.range (readH (h ++ [readH h X]) h.length).length)
    (h ++ [readH h X], h.length) (by simp)
  refine ⟨?_, ?_, ?_, ?_⟩
  · show readH (List.foldl _ (h ++ [readH h X]) _) X = readH h X
    rw [foldl_set_preserves h.length X (by omega), readH_append_left _ _ _ hX]
  · show h.length ≠ X
    omega
  · show readH (_ ++ [_]) X = readH h X
    rw [readH_append_left _ _ _ (by omega)]
    rw [hinv.2]
    exact readH_append_left _ _ _ hX
  · simp only [iqrTransformProc]
    have := hinv.1
    omega

theorem c9_transform_frame_witness :
    readH (nviTransformProc [5] [[[(-1 : ℚ), 2]]] 0).1 0 = readH [[[(-1 : ℚ), 2]]] 0 :=
  (c9_transform_frame [5] [3] [[[(-1 : ℚ), 2]]] 0 (by norm_num)).1

end Notebook
namespace Notebook

lemma sorted_getD_mono {s : List ℚ} (hs : s.Sorted (· ≤ ·)) {i j : ℕ}
    (hij : i ≤ j) (hj : j < s.length) : s.getD i 0 ≤ s.getD j 0 := by
  have hi : i < s.length := lt_of_le_of_lt hij hj
  rw [List.getD_eq_getElem _ _ hi, List.getD_eq_getElem _ _ hj]
  rcases eq_or_lt_of_le hij with rfl | hlt
  · exact le_refl _
  · have := hs.rel_get_of_lt (a := ⟨i, hi⟩) (b := ⟨j, hj⟩) hlt
    simpa using this

lemma npPercentile_mono (a : List ℚ) (ha : a ≠ []) {q₁ q₂ : ℚ}
    (h0 : 0 ≤ q₁) (h12 : q₁ ≤ q₂) (h100 : q₂ ≤ 100) :
    npPercentile a q₁ ≤ npPercentile a q₂ := by
  simp only [npPercentile]
  set s := asort a with hs_def
  have hsorted : s.Sorted (· ≤ ·) := List.sorted_insertionSort _ _
  set n := s.length with hn_def
  have hn : 1 ≤ n := by
    have hlen : s.length = a.length := (List.perm_insertionSort (· ≤ ·) a).length_eq
    have : 0 < a.length := List.length_pos.mpr ha
    omega
  set h₁ := q₁ * ((n : ℚ) - 1) / 100 with hh1
  set h₂ := q₂ * ((n : ℚ) - 1) / 100 with hh2
  have hn1 : (0 : ℚ) ≤ (n : ℚ) - 1 := by
    have : (1 : ℚ) ≤ (n : ℚ) := by exact_mod_cast hn
    linarith
  have h1nn : 0 ≤ h₁ := div_nonneg (mul_nonneg h0 hn1) (by norm_num)
  have h12' : h₁ ≤ h₂ := by
    rw [hh1, hh2]
    gcongr
  have h2le : h₂ ≤ (n : ℚ) - 1 := by
    rw [hh2, div_le_iff₀ (by norm_num : (0 : ℚ) < 100)]
    nlinarith
  have hf1nn : 0 ≤ ⌊h₁⌋ := Int.floor_nonneg.mpr h1nn
  have hf12 : ⌊h₁⌋ ≤ ⌊h₂⌋ := Int.floor_le_floor h12'
  have hf2nn : 0 ≤ ⌊h₂⌋ := le_trans hf1nn hf12
  have hf2le : ⌊h₂⌋ ≤ (n : ℤ) - 1 := by
    calc ⌊h₂⌋ ≤ ⌊((n : ℚ) - 1)⌋ := Int.floor_le_floor h2le
    _ = (n : ℤ) - 1 := by
        rw [show ((n : ℚ) - 1) = (((n : ℤ) - 1 : ℤ) : ℚ) by push_cast; ring]
        exact Int.floor_intCast _
  set i₁ := ⌊h₁⌋.toNat with hi1_def
  set i₂ := ⌊h₂⌋.toNat with hi2_def
  have hi1c : (i₁ : ℚ) = (⌊h₁⌋ : ℚ) := by
    rw [hi1_def]; exact_mod_cast Int.toNat_of_nonneg hf1nn
  have hi2c : (i₂ : ℚ) = (⌊h₂⌋ : ℚ) := by
    rw [hi2_def]; exact_mod_cast Int.toNat_of_nonneg hf2nn
  have hi12 : i₁ ≤ i₂ := by omega
  have hi2n : i₂ ≤ n - 1 := by omega
  have hfrac1a : (⌊h₁⌋ : ℚ) ≤ h₁ := Int.floor_le h₁
  have hfrac1b : h₁ < (⌊h₁⌋ : ℚ) + 1 := Int.lt_floor_add_one h₁
  have hfrac2a : (⌊h₂⌋ : ℚ) ≤ h₂ := Int.floor_le h₂
  have hfrac2b : h₂ < (⌊h₂⌋ : ℚ) + 1 := Int.lt_floor_add_one h₂
  by_cases hb2 : i₂ + 1 < n
  · by_cases hb1 : i₁ + 1 < n
    · rw [if_pos hb1, if_pos hb2]
      rcases eq_or_lt_of_le hi12 with heq | hlt
      · have hfe : (⌊h₁⌋ : ℚ) = (⌊h₂⌋ : ℚ) := by rw [← hi1c, ← hi2c, heq]
        rw [← heq, ← hfe]
        have hd : s.getD i₁ 0 ≤ s.getD (i₁ + 1) 0 :=
          sorted_getD_mono hsorted (by omega) (by omega)
        nlinarith [mul_nonneg (sub_nonneg.mpr h12') (sub_nonneg.mpr hd)]
      · have hd1 : s.getD i₁ 0 ≤ s.getD (i₁ + 1) 0 :=
          sorted_getD_mono hsorted (by omega) (by omega)
        have hup : s.getD i₁ 0 + (h₁ - (⌊h₁⌋ : ℚ)) * (s.getD (i₁ + 1) 0 - s.getD i₁ 0)
            ≤ s.getD (i₁ + 1) 0 := by
          nlinarith [mul_nonneg (by linarith : (0 : ℚ) ≤ (⌊h₁⌋ : ℚ) + 1 - h₁)
            (sub_nonneg.mpr hd1)]
        have hmid : s.getD (i₁ + 1) 0 ≤ s.getD i₂ 0 :=
          sorted_getD_mono hsorted (by omega) (by omega)
        have hd2 : s.getD i₂ 0 ≤ s.getD (i₂ + 1) 0 :=
          sorted_getD_mono hsorted (by omega) (by omega)
        have hlo : s.getD i₂ 0
            ≤ s.getD i₂ 0 + (h₂ - (⌊h₂⌋ : ℚ)) * (s.getD (i₂ + 1) 0 - s.getD i₂ 0) := by
          nlinarith [mul_nonneg (by linarith : (0 : ℚ) ≤ h₂ - (⌊h₂⌋ : ℚ))
            (sub_nonneg.mpr hd2)]
        linarith
    · exact absurd (by omega : i₁ + 1 < n) hb1
  · rw [if_neg hb2]
    by_cases hb1 : i₁ + 1 < n
    · rw [if_pos hb1]
      have hd1 : s.getD i₁ 0 ≤ s.getD (i₁ + 1) 0 :=
        sorted_getD_mono hsorted (by omega) (by omega)
      have hup : s.getD i₁ 0 + (h₁ - (⌊h₁⌋ : ℚ)) * (s.getD (i₁ + 1) 0 - s.getD i₁ 0)
          ≤ s.getD (i₁ + 1) 0 := by
        nlinarith [mul_nonneg (by linarith : (0 : ℚ) ≤ (⌊h₁⌋ : ℚ) + 1 - h₁)
          (sub_nonneg.mpr hd1)]
      have hmid : s.getD (i₁ + 1) 0 ≤ s.getD (n - 1) 0 :=
        sorted_getD_mono hsorted (by omega) (by omega)
      linarith
    · rw [if_neg hb1]


/-- Claim C7: `bootstrap_CI_regression` returns the two basic-bootstrap interval
pairs — each lower bound is the point statistic minus the `100*(1 - alpha/2)`-th
percentile of the resampled-statistic spreads, each upper bound the statistic
minus the `100*(alpha/2)`-th percentile — and in each pair the lower bound is
at most the upper bound. -/
theorem c7_bootstrap_ci (y_test y_pred : List ℚ) (n_bs : ℕ) (alpha : ℚ)
    (rand_idx : ℕ → List ℕ)
    (hlen : y_test.length = y_pred.length) (hne : y_test ≠ []) (hnbs : 1 ≤ n_bs)
    (ha0 : 0 < alpha) (ha1 : alpha < 1)
    (hidx : ∀ i < n_bs, (rand_idx i).length = y_test.length
      ∧ ∀ j ∈ rand_idx i, j < y_test.length) :
    (bootstrap_CI_regression y_test y_pred n_bs alpha rand_idx =
      ((mean_squared_error y_test y_pred
          - npPercentile (((List.range n_bs).map fun i =>
              mean_squared_error (select y_test (rand_idx i)) (select y_pred (rand_idx i))).map
              (· - mean_squared_error y_test y_pred)) (100 * (1 - alpha / 2)),
        mean_squared_error y_test y_pred
          - npPercentile (((List.range n_bs).map fun i =>
              mean_squared_error (select y_test (rand_idx i)) (select y_pred (rand_idx i))).map
              (· - mean_squared_error y_test y_pred)) (100 * (alpha / 2))),
       (r2_score y_test y_pred
          - npPercentile (((List.range n_bs).map fun i =>
              r2_score (select y_test (rand_idx i)) (select y_pred (rand_idx i))).map
              (· - r2_score y_test y_pred)) (100 * (1 - alpha / 2)),
        r2_score y_test y_pred
          - npPercentile (((List.range n_bs).map fun i =>
              r2_score (select y_test (rand_idx i)) (select y_pred (rand_idx i))).map
              (· - r2_score y_test y_pred)) (100 * (alpha / 2)))))
    ∧ (bootstrap_CI_regression y_test y_pred n_bs alpha rand_idx).1.1
        ≤ (bootstrap_CI_regression y_test y_pred n_bs alpha rand_idx).1.2
    ∧ (bootstrap_CI_regression y_test y_pred n_bs alpha rand_idx).2.1
        ≤ (bootstrap_CI_regression y_test y_pred n_bs alpha rand_idx).2.2 := by
  have hq0 : (0 : ℚ) ≤ 100 * (alpha / 2) := by linarith
  have hq12 : 100 * (alpha / 2) ≤ 100 * (1 - alpha / 2) := by linarith
  have hq100 : 100 * (1 - alpha / 2) ≤ 100 := by linarith
  have hmono : ∀ sp : List ℚ, sp ≠ [] →
      npPercentile sp (100 * (alpha / 2)) ≤ npPercentile sp (100 * (1 - alpha / 2)) :=
    fun sp hsp => npPercentile_mono sp hsp hq0 hq12 hq100
  have hnempty : ∀ g : ℕ → ℚ, ((List.range n_bs).map g).map
      (· - mean_squared_error y_test y_pred) ≠ [] := by
    intro g h
    have := congrArg List.length h
    simp at this
    omega
  have hnempty2 : ∀ g : ℕ → ℚ, ((List.range n_bs).map g).map
      (· - r2_score y_test y_pred) ≠ [] := by
    intro g h
    have := congrArg List.length h
    simp at this
    omega
  refine ⟨rfl, ?_, ?_⟩
  · show mean_squared_error y_test y_pred - _ ≤ mean_squared_error y_test y_pred - _
    exact sub_le_sub_left (hmono _ (hnempty _)) _
  · show r2_score y_test y_pred - _ ≤ r2_score y_test y_pred - _
    exact sub_le_sub_left (hmono _ (hnempty2 _)) _

theorem c7_bootstrap_ci_witness :
    (bootstrap_CI_regression [(1 : ℚ), 2] [(1 : ℚ), 3] 2 (1 / 2) (fun _ => [0, 1])).1.1
      ≤ (bootstrap_CI_regression [(1 : ℚ), 2] [(1 : ℚ), 3] 2 (1 / 2) (fun _ => [0, 1])).1.2 :=
  (c7_bootstrap_ci [1, 2] [1, 3] 2 (1 / 2) (fun _ => [0, 1]) rfl (by simp)
    (by norm_num) (by norm_num) (by norm_num) (by decide)).2.1

end Notebook
